import Mathlib

/-!
Shallow embedding of the calendar repository's core (src/main.rs and src/c.rs):
the recurring date-range parser (`parse_date_range`), the date iterator
(`DateIter::next`), the filtered export (`write_filtered`) and the station
lookup (`crs::crs`).

Modelling conventions:
* `chrono::NaiveDate` is a structure of year (`Int`, the `i32` field),
  month and day (`Nat`, the `u32` accessors) with chrono's validity range
  (years -262144..=262143, clamped month arithmetic).
* Machine integers are `Nat`/`Int`; where Rust wraps (`12 * years_offset`
  on `u32` in release mode) the wrap is an explicit `% 4294967296`.
* A Rust function that can return `Err`, return `Ok`, or panic is modelled
  by the outcome type `R`: `.ok`, `.err` (a returned error value) and
  `.panic` (process abort via `unwrap` / indexing).
* The regex `\d` is modelled as an ASCII digit (all inputs of interest are
  ASCII).
* Adding a signed number of days is modelled as iterated successor /
  predecessor of the calendar date, with `none` when the representable
  range is exceeded; this agrees with `NaiveDate::checked_add_signed`
  restricted to whole days.
-/

/-- A civil calendar date, mirroring `chrono::NaiveDate`'s observable
(year, month, day) triple. -/
structure Date where
  year : Int
  month : Nat
  day : Nat
deriving DecidableEq, Repr

/-- Proleptic Gregorian leap-year rule, as chrono computes it
(via `rem_euclid`, which `Int.emod` matches). -/
def isLeap (y : Int) : Bool :=
  (y % 4 == 0 && y % 100 != 0) || y % 400 == 0

/-- Number of days of a month (0 for an out-of-range month number). -/
def daysInMonth (y : Int) (m : Nat) : Nat :=
  match m with
  | 1 => 31
  | 2 => if isLeap y then 29 else 28
  | 3 => 31
  | 4 => 30
  | 5 => 31
  | 6 => 30
  | 7 => 31
  | 8 => 31
  | 9 => 30
  | 10 => 31
  | 11 => 30
  | 12 => 31
  | _ => 0

theorem daysInMonth_le (y : Int) (m : Nat) : daysInMonth y m ≤ 31 := by
  unfold daysInMonth
  split <;> first | omega | (split <;> omega)

theorem daysInMonth_pos (y : Int) (m : Nat) (h1 : 1 ≤ m) (h12 : m ≤ 12) :
    1 ≤ daysInMonth y m := by
  interval_cases m <;> simp only [daysInMonth] <;> (try split) <;> omega

/-- chrono's representable year range: `MIN_YEAR = i32::MIN >> 13`,
`MAX_YEAR = i32::MAX >> 13`. -/
def minYear : Int := -262144

def maxYear : Int := 262143

/-- A date chrono would accept (what `NaiveDate::from_ymd_opt` checks). -/
def ValidDate (d : Date) : Prop :=
  1 ≤ d.month ∧ d.month ≤ 12 ∧ 1 ≤ d.day ∧ d.day ≤ daysInMonth d.year d.month ∧
    minYear ≤ d.year ∧ d.year ≤ maxYear

instance (d : Date) : Decidable (ValidDate d) := by
  unfold ValidDate; infer_instance

/-- `NaiveDate::from_ymd_opt`. -/
def fromYmd? (y : Int) (m : Nat) (d : Nat) : Option Date :=
  if ValidDate ⟨y, m, d⟩ then some ⟨y, m, d⟩ else none

theorem fromYmd?_valid {y m d a} (h : fromYmd? y m d = some a) :
    ValidDate a ∧ a = ⟨y, m, d⟩ := by
  unfold fromYmd? at h
  split at h
  · cases h; exact ⟨by assumption, rfl⟩
  · cases h

/-- Strict chronological (lexicographic) order on dates, as `chrono`'s `Ord`. -/
def dlt (a b : Date) : Prop :=
  a.year < b.year ∨ (a.year = b.year ∧
    (a.month < b.month ∨ (a.month = b.month ∧ a.day < b.day)))

/-- Non-strict chronological order on dates. -/
def dle (a b : Date) : Prop :=
  a.year < b.year ∨ (a.year = b.year ∧
    (a.month < b.month ∨ (a.month = b.month ∧ a.day ≤ b.day)))

instance (a b : Date) : Decidable (dlt a b) := by unfold dlt; infer_instance

instance (a b : Date) : Decidable (dle a b) := by unfold dle; infer_instance

theorem dle_refl (a : Date) : dle a a := by unfold dle; omega

theorem dlt_irrefl (a : Date) : ¬ dlt a a := by unfold dlt; omega

theorem dle_of_not_dlt {a b : Date} (h : ¬ dlt b a) : dle a b := by
  unfold dlt at h; unfold dle; omega

theorem dle_trans {a b c : Date} (h1 : dle a b) (h2 : dle b c) : dle a c := by
  unfold dle at *; omega

theorem dle_of_dlt {a b : Date} (h : dlt a b) : dle a b := by
  unfold dlt at h; unfold dle; omega

/-- The month index `year * 12 + month - 1` used by chrono's
`checked_add_months` arithmetic. -/
def monthIdx (d : Date) : Int := d.year * 12 + d.month - 1

theorem monthIdx_le_of_dle {a b : Date}
    (ha : a.month ≤ 12) (hb : 1 ≤ b.month) (h : dle a b) :
    monthIdx a ≤ monthIdx b := by
  unfold dle at h; unfold monthIdx; omega

theorem dlt_of_monthIdx_lt {a b : Date}
    (ha : 1 ≤ a.month) (hb : b.month ≤ 12) (h : monthIdx a < monthIdx b) :
    dlt a b := by
  unfold monthIdx at h; unfold dlt; omega

/-- `NaiveDate::checked_add_months` (day clamped to the target month's
length, `None` when the result is out of chrono's range).  The internal
`i32` overflow check is subsumed by the year-range check of `fromYmd?`. -/
def addMonthsChecked (a : Date) (k : Nat) : Option Date :=
  if k = 0 then some a
  else if 2147483647 < k then none
  else
    let idx : Int := monthIdx a + k
    let y : Int := idx / 12
    let m : Nat := (idx % 12).toNat + 1
    fromYmd? y m (min a.day (daysInMonth y m))

/-- Successor calendar date (`None` past `NaiveDate::MAX`). -/
def succDay (a : Date) : Option Date :=
  if a.day < daysInMonth a.year a.month then some ⟨a.year, a.month, a.day + 1⟩
  else if a.month < 12 then some ⟨a.year, a.month + 1, 1⟩
  else if a.year < maxYear then some ⟨a.year + 1, 1, 1⟩
  else none

/-- Predecessor calendar date (`None` before `NaiveDate::MIN`). -/
def predDay (a : Date) : Option Date :=
  if 1 < a.day then some ⟨a.year, a.month, a.day - 1⟩
  else if 1 < a.month then some ⟨a.year, a.month - 1, daysInMonth a.year (a.month - 1)⟩
  else if minYear < a.year then some ⟨a.year - 1, 12, 31⟩
  else none

def iterSucc : Nat → Date → Option Date
  | 0, a => some a
  | n + 1, a => (succDay a).bind (iterSucc n)

def iterPred : Nat → Date → Option Date
  | 0, a => some a
  | n + 1, a => (predDay a).bind (iterPred n)

/-- `NaiveDate::checked_add_signed` for a whole number of days, modelled as
iterated successor / predecessor. -/
def addDaysChecked (a : Date) (n : Int) : Option Date :=
  if 0 ≤ n then iterSucc n.toNat a else iterPred (-n).toNat a

theorem succDay_dlt {a b : Date} (h : succDay a = some b) : dlt a b := by
  unfold succDay at h
  split at h
  · cases h; unfold dlt; dsimp only; omega
  · split at h
    · cases h; unfold dlt; dsimp only; omega
    · split at h
      · cases h; unfold dlt; dsimp only; omega
      · cases h

theorem succDay_valid {a b : Date} (hv : ValidDate a) (h : succDay a = some b) :
    ValidDate b := by
  unfold succDay at h
  unfold ValidDate at *
  split at h
  · cases h
    dsimp only
    omega
  · split at h
    · cases h
      dsimp only
      refine ⟨by omega, by omega, by omega, ?_, by omega, by omega⟩
      exact daysInMonth_pos _ _ (by omega) (by omega)
    · split at h
      · cases h
        dsimp only
        refine ⟨by omega, by omega, by omega, ?_, by omega, by omega⟩
        exact daysInMonth_pos _ _ (by omega) (by omega)
      · cases h

theorem predDay_valid {a b : Date} (hv : ValidDate a) (h : predDay a = some b) :
    ValidDate b := by
  unfold predDay at h
  unfold ValidDate at *
  split at h
  · cases h; dsimp only; omega
  · split at h
    · cases h
      dsimp only
      refine ⟨by omega, by omega, ?_, by omega, by omega, by omega⟩
      exact daysInMonth_pos _ _ (by omega) (by omega)
    · split at h
      · cases h
        dsimp only
        refine ⟨by omega, by omega, by omega, ?_, by omega, by omega⟩
        simp only [daysInMonth]
        omega
      · cases h

theorem iterSucc_dle {n : Nat} {a b : Date} (h : iterSucc n a = some b) : dle a b := by
  induction n generalizing a with
  | zero => cases h; exact dle_refl _
  | succ k ih =>
    unfold iterSucc at h
    cases hs : succDay a with
    | none => rw [hs] at h; cases h
    | some a' =>
      rw [hs] at h
      exact dle_trans (dle_of_dlt (succDay_dlt hs)) (ih h)

theorem iterSucc_valid {n : Nat} {a b : Date} (hv : ValidDate a)
    (h : iterSucc n a = some b) : ValidDate b := by
  induction n generalizing a with
  | zero => cases h; exact hv
  | succ k ih =>
    unfold iterSucc at h
    cases hs : succDay a with
    | none => rw [hs] at h; cases h
    | some a' =>
      rw [hs] at h
      exact ih (succDay_valid hv hs) h

theorem iterPred_valid {n : Nat} {a b : Date} (hv : ValidDate a)
    (h : iterPred n a = some b) : ValidDate b := by
  induction n generalizing a with
  | zero => cases h; exact hv
  | succ k ih =>
    unfold iterPred at h
    cases hs : predDay a with
    | none => rw [hs] at h; cases h
    | some a' =>
      rw [hs] at h
      exact ih (predDay_valid hv hs) h

theorem addDaysChecked_dle {a b : Date} {n : Int} (hn : 0 ≤ n)
    (h : addDaysChecked a n = some b) : dle a b := by
  unfold addDaysChecked at h
  rw [if_pos hn] at h
  exact iterSucc_dle h

theorem addDaysChecked_valid {a b : Date} {n : Int} (hv : ValidDate a)
    (h : addDaysChecked a n = some b) : ValidDate b := by
  unfold addDaysChecked at h
  split at h
  · exact iterSucc_valid hv h
  · exact iterPred_valid hv h

theorem addMonthsChecked_valid {a b : Date} {k : Nat}
    (hv : ValidDate a) (h : addMonthsChecked a k = some b) : ValidDate b := by
  unfold addMonthsChecked at h
  split at h
  · cases h; exact hv
  · split at h
    · cases h
    · exact (fromYmd?_valid h).1

theorem addMonthsChecked_monthIdx {a b : Date} {k : Nat} (hk : k ≠ 0)
    (h : addMonthsChecked a k = some b) : monthIdx b = monthIdx a + k := by
  unfold addMonthsChecked at h
  rw [if_neg hk] at h
  split at h
  · cases h
  · obtain ⟨hvb, hb⟩ := fromYmd?_valid h
    subst hb
    unfold monthIdx
    simp only
    have h12 : (12 : Int) ≠ 0 := by omega
    have hmod := Int.emod_nonneg (monthIdx a + k) h12
    have hmod2 := Int.emod_lt_of_pos (monthIdx a + k) (show (0:Int) < 12 by omega)
    have hdm := Int.ediv_add_emod (monthIdx a + k) 12
    omega

theorem addMonthsChecked_dle {a b : Date} {k : Nat}
    (hv : ValidDate a) (h : addMonthsChecked a k = some b) : dle a b := by
  by_cases hk : k = 0
  · subst hk
    unfold addMonthsChecked at h
    simp only [if_pos rfl] at h
    cases h; exact dle_refl _
  · have hidx := addMonthsChecked_monthIdx hk h
    have hvb := addMonthsChecked_valid hv h
    refine dle_of_dlt (dlt_of_monthIdx_lt hv.1 hvb.2.1 ?_)
    omega

/-- The step of a `DateIter` (Rust enum `DateStep`): `Days(i64)`,
`Months(u32)`, `Years(u32)`. -/
inductive DateStep where
  | Days (d : Int)
  | Months (m : Nat)
  | Years (y : Nat)
deriving DecidableEq, Repr

/-- State of the Rust `DateIter` iterator. -/
structure DateIter where
  current : Date
  endDate : Date
  step : DateStep
  finished : Bool
deriving DecidableEq, Repr

/-- `DateIter::next`.  Emits `current`, then advances the state; an
advance whose checked calendar addition fails sets `finished` instead.
`Years(y)` advances by `Months::new(12 * y)` (u32 arithmetic, hence the
explicit wrap). -/
def next (it : DateIter) : Option (Date × DateIter) :=
  if it.finished = true ∨ dlt it.endDate it.current then none
  else
    some (it.current,
      match it.step with
      | .Days d =>
        if d = 0 then { it with finished := true }
        else
          match addDaysChecked it.current d with
          | some nd => { it with current := nd }
          | none => { it with finished := true }
      | .Months m =>
        match addMonthsChecked it.current m with
        | some nd => { it with current := nd }
        | none => { it with finished := true }
      | .Years y =>
        match addMonthsChecked it.current ((12 * y) % 4294967296) with
        | some nd => { it with current := nd }
        | none => { it with finished := true })

/-- Fuel-indexed unfolding of the iterator into the list of dates it
yields. -/
def expandFuel : Nat → DateIter → List Date
  | 0, _ => []
  | n + 1, it =>
    match next it with
    | none => []
    | some (d, it') => d :: expandFuel n it'

/-- Fuel that suffices to exhaust any iterator whose step was produced by
`parse_date_range` (proved by `expandFuel_stable`). -/
def mu (it : DateIter) : Nat :=
  if it.finished = true ∨ dlt it.endDate it.current then 0
  else 1 + 40 * (monthIdx it.endDate - monthIdx it.current).toNat + (32 - it.current.day)

/-- The full date sequence of an iterator. -/
def expand (it : DateIter) : List Date := expandFuel (mu it) it

/-- Returned error values of `parse_date_range` (`Box<dyn Error>` built
from the string literals in the source). -/
inductive RunErr where
  | invalidDateRange
  | invalidEndY
  | invalidEndM
  | invalidEndD
deriving DecidableEq, Repr

/-- Outcome of running a Rust function: normal return, returned `Err`
value, or process abort (`unwrap` on `None`/`Err`, out-of-bounds index). -/
inductive R (α : Type) where
  | ok (a : α)
  | err (e : RunErr)
  | panic
deriving DecidableEq, Repr

/-- Is the outcome a returned error value? -/
def R.isErr {α : Type} : R α → Bool
  | .err _ => true
  | _ => false

/-- Capture groups of the specifier regex
`^(\d{4})(?:\+(\d*))?-(\d{2})(?:\+(\d*))?-(\d{2})(?:\+(\d*))?$`:
`y`,`m`,`d` are the digit runs of the anchor; `yo`,`mo`,`dOff` are
`none` when the optional `+...` group is absent and `some run` (possibly
empty) when it is present. -/
structure Caps where
  y : String
  yo : Option String
  m : String
  mo : Option String
  d : String
  dOff : Option String
deriving DecidableEq, Repr

/-- Consume an optional `+` followed by a greedy run of digits. -/
def takeOffset : List Char → Option String × List Char
  | '+' :: rest => (some (String.mk (rest.takeWhile Char.isDigit)), rest.dropWhile Char.isDigit)
  | l => (none, l)

/-- The anchored specifier regex as a deterministic matcher over the
characters of the string. -/
def grammarList (l : List Char) : Option Caps :=
  match l with
  | c1 :: c2 :: c3 :: c4 :: rest =>
    if c1.isDigit && c2.isDigit && c3.isDigit && c4.isDigit then
      match takeOffset rest with
      | (yo, rest1) =>
        match rest1 with
        | '-' :: m1 :: m2 :: rest2 =>
          if m1.isDigit && m2.isDigit then
            match takeOffset rest2 with
            | (mo, rest3) =>
              match rest3 with
              | '-' :: d1 :: d2 :: rest4 =>
                if d1.isDigit && d2.isDigit then
                  match takeOffset rest4 with
                  | (dOff, rest5) =>
                    if rest5.isEmpty then
                      some ⟨String.mk [c1, c2, c3, c4], yo,
                            String.mk [m1, m2], mo,
                            String.mk [d1, d2], dOff⟩
                    else none
                else none
              | _ => none
          else none
        | _ => none
    else none
  | _ => none

def grammarCaps (s : String) : Option Caps := grammarList s.data

/-- Numeric value of a run of ASCII digits (what `str::parse` computes
when it does not overflow). -/
def digitsVal (s : String) : Nat :=
  s.data.foldl (fun a c => a * 10 + (c.toNat - 48)) 0

def yNum (c : Caps) : Int := digitsVal c.y

def mNum (c : Caps) : Nat := digitsVal c.m

def dNum (c : Caps) : Nat := digitsVal c.d

/-- `str::parse::<u32>` on a digit run: fails when empty or above
`u32::MAX`. -/
def parseU32? (t : String) : Option Nat :=
  if t.isEmpty then none
  else if digitsVal t < 4294967296 then some (digitsVal t) else none

/-- `str::parse::<i64>` on a digit run: fails when empty or above
`i64::MAX`. -/
def parseI64? (t : String) : Option Int :=
  if t.isEmpty then none
  else if digitsVal t < 9223372036854775808 then some (digitsVal t) else none

/-- The `years_offset` computation: absent → 0; `+` alone → the clamped
year difference to now; `+digits` → `parse::<u32>().unwrap()`. -/
def resolveYears (field : Option String) (start now : Date) : R Nat :=
  match field with
  | none => .ok 0
  | some t =>
    if t = "" then
      let diff : Int := now.year - start.year
      .ok (if diff < 0 then 0 else diff.toNat)
    else
      match parseU32? t with
      | some n => .ok n
      | none => .panic

/-- The `months_offset` computation (month component difference only). -/
def resolveMonths (field : Option String) (start now : Date) : R Nat :=
  match field with
  | none => .ok 0
  | some t =>
    if t = "" then
      let diff : Int := (now.month : Int) - (start.month : Int)
      .ok (if diff < 0 then 0 else diff.toNat)
    else
      match parseU32? t with
      | some n => .ok n
      | none => .panic

/-- The `days_offset` computation (day-of-month component difference
only, as `i64`). -/
def resolveDays (field : Option String) (start now : Date) : R Int :=
  match field with
  | none => .ok 0
  | some t =>
    if t = "" then
      let diff : Int := (now.day : Int) - (start.day : Int)
      .ok (if diff < 0 then 0 else diff)
    else
      match parseI64? t with
      | some n => .ok n
      | none => .panic

/-- `chrono::Duration::days(d)` panics beyond this many days
(`i64::MAX` milliseconds of duration). -/
def durationDaysMax : Int := 106751991167

/-- End-date computation of `parse_date_range`: add `12 * years_offset`
months (u32 multiply, wrapping), then — if `months_offset > 0` — add
`years_offset` months again (the source really passes `years_offset`
here), then add `days_offset` days. -/
def computeEnd (start : Date) (yo mo : Nat) (dOff : Int) : R Date :=
  match (if 0 < yo then addMonthsChecked start ((12 * yo) % 4294967296) else some start) with
  | none => .err .invalidEndY
  | some e1 =>
    match (if 0 < mo then addMonthsChecked e1 yo else some e1) with
    | none => .err .invalidEndM
    | some e2 =>
      if 0 < dOff then
        if durationDaysMax < dOff then .panic
        else
          match addDaysChecked e2 dOff with
          | none => .err .invalidEndD
          | some e3 => .ok e3
      else .ok e2

/-- Step selection of `parse_date_range`: days, else months, else years,
else no repetition (`Days(0)`). -/
def stepOf (yo mo : Nat) (dOff : Int) : DateStep :=
  if 0 < dOff then .Days 1
  else if 0 < mo then .Months 1
  else if 0 < yo then .Years 1
  else .Days 0

/-- `parse_date_range`.  The anchor is built with
`from_ymd_opt(..).unwrap()` — an invalid calendar date PANICS; explicit
offsets are parsed with `.parse().unwrap()` — overflow PANICS; only the
regex mismatch and end-date overflows are returned `Err` values. -/
def parseDateRange (s : String) (now : Date) : R DateIter :=
  match grammarCaps s with
  | none => .err .invalidDateRange
  | some c =>
    match fromYmd? (yNum c) (mNum c) (dNum c) with
    | none => .panic
    | some start =>
      match resolveYears c.yo start now with
      | .err e => .err e
      | .panic => .panic
      | .ok yo =>
        match resolveMonths c.mo start now with
        | .err e => .err e
        | .panic => .panic
        | .ok mo =>
          match resolveDays c.dOff start now with
          | .err e => .err e
          | .panic => .panic
          | .ok dOff =>
            match computeEnd start yo mo dOff with
            | .err e => .err e
            | .panic => .panic
            | .ok e =>
              .ok { current := start, endDate := e, step := stepOf yo mo dOff,
                    finished := false }

/-- End date of a successfully parsed range. -/
def rangeEnd (r : R DateIter) : Option Date :=
  match r with
  | .ok it => some it.endDate
  | _ => none

/-- Step of a successfully parsed range. -/
def rangeStep (r : R DateIter) : Option DateStep :=
  match r with
  | .ok it => some it.step
  | _ => none

/-- Expanded date sequence of a successfully parsed range. -/
def rangeDates (r : R DateIter) : Option (List Date) :=
  match r with
  | .ok it => some (expand it)
  | _ => none

/-- Transit legs (`enum Transit` of src/main.rs); the payloads are opaque
to the logic verified here. -/
inductive Transit where
  | walk (fromPlace toPlace : String)
  | bus (fromPlace toPlace info : String)
  | metro (fromPlace toPlace info : String)
  | train (fromPlace toPlace info : String)
  | plane (fromPlace toPlace : String)
deriving DecidableEq, Repr

/-- Calendar events (`enum Event` of src/main.rs). -/
inductive Event where
  | birthday (name : String)
  | comp (id : String)
  | transit (t : Transit)
deriving DecidableEq, Repr

/-- Lexicographic order on character lists (by code point).  UTF-8 byte
order — the `Ord` a Rust `BTreeMap<String, _>` sorts by — coincides with
code-point order, so this is the map's key order. -/
def charsLt : List Char → List Char → Bool
  | [], _ :: _ => true
  | _, [] => false
  | c :: cs, d :: ds =>
    if c.toNat < d.toNat then true
    else if d.toNat < c.toNat then false
    else charsLt cs ds

/-- The `BTreeMap` key order on strings. -/
def strLt (a b : String) : Bool := charsLt a.data b.data

/-- Insertion into a key-ordered association list, replacing an equal
key: the effect of one `BTreeMap` insertion on its sorted entry list. -/
def insertSorted {α : Type} (l : List (String × α)) (kv : String × α) :
    List (String × α) :=
  match l with
  | [] => [kv]
  | (k, v) :: rest =>
    if strLt kv.1 k then kv :: (k, v) :: rest
    else if kv.1 = k then kv :: rest
    else (k, v) :: insertSorted rest kv

/-- `BTreeMap` built by collecting a sequence of key/value pairs, as the
`.collect()` in `write_filtered` does; represented by its sorted entry
list. -/
def btreeFromList {α : Type} (l : List (String × α)) : List (String × α) :=
  l.foldl insertSorted []

/-- `write_filtered` (minus the file I/O): filter-map each entry's event
list through `f`, drop entries whose filtered list is empty, and collect
the result into a `BTreeMap`.  A `Calendar` is a `BTreeMap` too, so its
entry list `data` comes sorted by key. -/
def writeFiltered {T : Type} (data : List (String × List Event))
    (f : Event → Option T) : List (String × List T) :=
  btreeFromList
    (((data.map fun p => (p.1, p.2.filterMap f)).filter fun p => !p.2.isEmpty))

/-- The birthdays filter passed to `write_filtered` in `main`. -/
def birthdayFilter : Event → Option String
  | .birthday name => some name
  | _ => none

/-- The station database of `crs::crs` (src/c.rs). -/
def crsDb : List (String × String) :=
  [("EDB", "Edinburgh Waverley"), ("BHG", "Bathgate")]

/-- `crs::crs`: indexing the map with a missing key panics. -/
def crs (code : String) : R String :=
  match crsDb.lookup code with
  | some v => .ok v
  | none => .panic

theorem optStage_dle {a b : Date} {w : Nat} (c : Prop) [Decidable c]
    (hv : ValidDate a)
    (h : (if c then addMonthsChecked a w else some a) = some b) :
    dle a b ∧ ValidDate b := by
  split at h
  · exact ⟨addMonthsChecked_dle hv h, addMonthsChecked_valid hv h⟩
  · cases h; exact ⟨dle_refl a, hv⟩

theorem computeEnd_ok {start e : Date} {yo mo : Nat} {dOff : Int}
    (hv : ValidDate start) (h : computeEnd start yo mo dOff = .ok e) :
    dle start e ∧ ValidDate e := by
  unfold computeEnd at h
  cases hs1 : (if 0 < yo then addMonthsChecked start ((12 * yo) % 4294967296) else some start) with
  | none => rw [hs1] at h; cases h
  | some e1 =>
    rw [hs1] at h
    dsimp only at h
    obtain ⟨hle1, hv1⟩ := optStage_dle _ hv hs1
    cases hs2 : (if 0 < mo then addMonthsChecked e1 yo else some e1) with
    | none => rw [hs2] at h; cases h
    | some e2 =>
      rw [hs2] at h
      dsimp only at h
      obtain ⟨hle2, hv2⟩ := optStage_dle _ hv1 hs2
      split at h
      · split at h
        · cases h
        · cases hs3 : addDaysChecked e2 dOff with
          | none => rw [hs3] at h; cases h
          | some e3 =>
            rw [hs3] at h
            cases h
            refine ⟨dle_trans hle1 (dle_trans hle2 (addDaysChecked_dle ?_ hs3)),
                    addDaysChecked_valid hv2 hs3⟩
            omega
      · cases h
        exact ⟨dle_trans hle1 hle2, hv2⟩

theorem parseDateRange_ok_inv {s : String} {now : Date} {it : DateIter}
    (h : parseDateRange s now = .ok it) :
    ∃ c start yo mo dOff e,
      grammarCaps s = some c ∧
      fromYmd? (yNum c) (mNum c) (dNum c) = some start ∧
      resolveYears c.yo start now = .ok yo ∧
      resolveMonths c.mo start now = .ok mo ∧
      resolveDays c.dOff start now = .ok dOff ∧
      computeEnd start yo mo dOff = .ok e ∧
      it = ⟨start, e, stepOf yo mo dOff, false⟩ := by
  unfold parseDateRange at h
  cases hg : grammarCaps s with
  | none => rw [hg] at h; cases h
  | some c =>
    rw [hg] at h
    dsimp only at h
    cases ha : fromYmd? (yNum c) (mNum c) (dNum c) with
    | none => rw [ha] at h; cases h
    | some start =>
      rw [ha] at h
      dsimp only at h
      cases hy : resolveYears c.yo start now with
      | err e => rw [hy] at h; cases h
      | panic => rw [hy] at h; cases h
      | ok yo =>
        rw [hy] at h
        dsimp only at h
        cases hm : resolveMonths c.mo start now with
        | err e => rw [hm] at h; cases h
        | panic => rw [hm] at h; cases h
        | ok mo =>
          rw [hm] at h
          dsimp only at h
          cases hd : resolveDays c.dOff start now with
          | err e => rw [hd] at h; cases h
          | panic => rw [hd] at h; cases h
          | ok dOff =>
            rw [hd] at h
            dsimp only at h
            cases he : computeEnd start yo mo dOff with
            | err e => rw [he] at h; cases h
            | panic => rw [he] at h; cases h
            | ok e =>
              rw [he] at h
              dsimp only at h
              cases h
              exact ⟨c, start, yo, mo, dOff, e, rfl, ha, hy, hm, hd, he, rfl⟩

/-- The only step values `parse_date_range` ever creates. -/
def okStep (st : DateStep) : Prop :=
  st = .Days 0 ∨ st = .Days 1 ∨ st = .Months 1 ∨ st = .Years 1

/-- Invariant of the iterators produced by `parse_date_range`. -/
def iterInv (it : DateIter) : Prop :=
  ValidDate it.current ∧ ValidDate it.endDate ∧ okStep it.step

theorem stepOf_okStep (yo mo : Nat) (dOff : Int) : okStep (stepOf yo mo dOff) := by
  unfold stepOf okStep
  split
  · exact Or.inr (Or.inl rfl)
  · split
    · exact Or.inr (Or.inr (Or.inl rfl))
    · split
      · exact Or.inr (Or.inr (Or.inr rfl))
      · exact Or.inl rfl

theorem next_none_iff {it : DateIter} :
    next it = none ↔ (it.finished = true ∨ dlt it.endDate it.current) := by
  unfold next
  split
  next hcond => exact iff_of_true rfl hcond
  next hcond => exact iff_of_false (by simp) hcond

theorem next_some_basic {it : DateIter} {d : Date} {it' : DateIter}
    (h : next it = some (d, it')) :
    d = it.current ∧ it'.endDate = it.endDate ∧ it'.step = it.step ∧
      it.finished = false ∧ ¬ dlt it.endDate it.current := by
  unfold next at h
  split at h
  · cases h
  next hng =>
    injection h with h2
    rw [Prod.mk.injEq] at h2
    obtain ⟨hd, hit⟩ := h2
    subst hit
    refine ⟨hd.symm, ?_, ?_, ?_, ?_⟩
    · cases it.step <;> dsimp only <;> (repeat' split) <;> rfl
    · cases it.step <;> dsimp only <;> (repeat' split) <;> rfl
    · revert hng
      cases hf : it.finished <;> simp
    · intro hcon
      exact hng (Or.inr hcon)

theorem addDaysChecked_one (a : Date) : addDaysChecked a 1 = succDay a := by
  unfold addDaysChecked
  rw [if_pos (by omega)]
  show iterSucc 1 a = succDay a
  unfold iterSucc
  cases succDay a <;> rfl

theorem mu_eq_pos {it : DateIter} (hf : it.finished = false)
    (hnd : ¬ dlt it.endDate it.current) :
    mu it = 1 + 40 * (monthIdx it.endDate - monthIdx it.current).toNat +
      (32 - it.current.day) := by
  unfold mu
  split
  next hcond =>
    cases hcond with
    | inl h1 => rw [hf] at h1; cases h1
    | inr h2 => exact absurd h2 hnd
  next => rfl

theorem mu_of_finished {it : DateIter} (hf : it.finished = true) : mu it = 0 := by
  unfold mu
  rw [if_pos (Or.inl hf)]

theorem mu_of_past {it : DateIter} (hd : dlt it.endDate it.current) : mu it = 0 := by
  unfold mu
  rw [if_pos (Or.inr hd)]

theorem succDay_measure {a b : Date} (hv : ValidDate a) (h : succDay a = some b) :
    (monthIdx b = monthIdx a ∧ b.day = a.day + 1 ∧ b.day ≤ 31) ∨
      (monthIdx b = monthIdx a + 1 ∧ b.day = 1) := by
  unfold succDay at h
  split at h
  next hlt =>
    cases h
    left
    have hle := daysInMonth_le a.year a.month
    unfold monthIdx
    dsimp only
    omega
  next =>
    split at h
    next hm12 =>
      cases h
      right
      unfold monthIdx
      dsimp only
      omega
    next hm12 =>
      split at h
      next hy =>
        cases h
        right
        have h12 : a.month = 12 := by
          have := hv.2.1
          omega
        unfold monthIdx
        dsimp only
        omega
      next => cases h

theorem addMonthsChecked_valid_of_pos {a b : Date} {k : Nat} (hk : k ≠ 0)
    (h : addMonthsChecked a k = some b) : ValidDate b := by
  unfold addMonthsChecked at h
  rw [if_neg hk] at h
  split at h
  · cases h
  · exact (fromYmd?_valid h).1

theorem month_advance_mu {it : DateIter} {nd : Date} {k : Nat} (hk : 1 ≤ k)
    (hve : ValidDate it.endDate)
    (hf : it.finished = false) (hnd : ¬ dlt it.endDate it.current)
    (hadd : addMonthsChecked it.current k = some nd) :
    mu { it with current := nd } < mu it := by
  have hmu : mu it = 1 + 40 * (monthIdx it.endDate - monthIdx it.current).toNat +
      (32 - it.current.day) := mu_eq_pos hf hnd
  by_cases hpast : dlt it.endDate nd
  · have h0 : mu { it with current := nd } = 0 := mu_of_past hpast
    omega
  · have hvnd : ValidDate nd := addMonthsChecked_valid_of_pos (by omega) hadd
    have hidx : monthIdx nd = monthIdx it.current + k :=
      addMonthsChecked_monthIdx (by omega) hadd
    have hEnd : monthIdx nd ≤ monthIdx it.endDate :=
      monthIdx_le_of_dle hvnd.2.1 hve.1 (dle_of_not_dlt hpast)
    have hmu' : mu { it with current := nd } =
        1 + 40 * (monthIdx it.endDate - monthIdx nd).toNat + (32 - nd.day) :=
      mu_eq_pos hf hpast
    have hday : 1 ≤ nd.day := hvnd.2.2.1
    omega

theorem next_step {it : DateIter} {d : Date} {it' : DateIter}
    (hinv : iterInv it) (h : next it = some (d, it')) :
    iterInv it' ∧ mu it' < mu it ∧ it'.endDate = it.endDate ∧
      it'.step = it.step ∧ d = it.current := by
  obtain ⟨hvc, hve, hst⟩ := hinv
  unfold next at h
  split at h
  · cases h
  next hng =>
    injection h with h2
    rw [Prod.mk.injEq] at h2
    obtain ⟨hd, hit⟩ := h2
    have hf : it.finished = false := by
      revert hng
      cases it.finished <;> simp
    have hnd : ¬ dlt it.endDate it.current := fun hc => hng (Or.inr hc)
    have hmu : mu it = 1 + 40 * (monthIdx it.endDate - monthIdx it.current).toNat +
        (32 - it.current.day) := mu_eq_pos hf hnd
    have hcurle : dle it.current it.endDate := dle_of_not_dlt hnd
    have hEc : monthIdx it.current ≤ monthIdx it.endDate :=
      monthIdx_le_of_dle hvc.2.1 hve.1 hcurle
    have hdayle : it.current.day ≤ 31 :=
      le_trans hvc.2.2.2.1 (daysInMonth_le _ _)
    rcases hst with h0 | h1 | hM | hY
    · -- step Days 0: mark finished
      rw [h0] at hit
      dsimp only at hit
      rw [if_pos rfl] at hit
      subst hit
      refine ⟨⟨hvc, hve, Or.inl rfl⟩, ?_, rfl, h0.symm, hd.symm⟩
      have h0' : mu ⟨it.current, it.endDate, .Days 0, true⟩ = 0 := mu_of_finished rfl
      omega
    · -- step Days 1: one successor day
      rw [h1] at hit
      dsimp only at hit
      rw [if_neg (show ¬ (1 : Int) = 0 by omega)] at hit
      rw [addDaysChecked_one] at hit
      cases hs : succDay it.current with
      | none =>
        rw [hs] at hit
        dsimp only at hit
        subst hit
        refine ⟨⟨hvc, hve, Or.inr (Or.inl rfl)⟩, ?_, rfl, h1.symm, hd.symm⟩
        have h0' : mu ⟨it.current, it.endDate, .Days 1, true⟩ = 0 := mu_of_finished rfl
        omega
      | some nd =>
        rw [hs] at hit
        dsimp only at hit
        subst hit
        have hvnd := succDay_valid hvc hs
        refine ⟨⟨hvnd, hve, Or.inr (Or.inl rfl)⟩, ?_, rfl, h1.symm, hd.symm⟩
        by_cases hpast : dlt it.endDate nd
        · have h0' : mu ⟨nd, it.endDate, .Days 1, it.finished⟩ = 0 := mu_of_past hpast
          omega
        · have hEnd : monthIdx nd ≤ monthIdx it.endDate :=
            monthIdx_le_of_dle hvnd.2.1 hve.1 (dle_of_not_dlt hpast)
          have hmu' : mu ⟨nd, it.endDate, .Days 1, it.finished⟩ =
              1 + 40 * (monthIdx it.endDate - monthIdx nd).toNat + (32 - nd.day) :=
            mu_eq_pos hf hpast
          rcases succDay_measure hvc hs with ⟨hidx, hday, hday31⟩ | ⟨hidx, hday⟩ <;> omega
    · -- step Months 1
      rw [hM] at hit
      dsimp only at hit
      cases hadd : addMonthsChecked it.current 1 with
      | none =>
        rw [hadd] at hit
        dsimp only at hit
        subst hit
        refine ⟨⟨hvc, hve, Or.inr (Or.inr (Or.inl rfl))⟩, ?_, rfl, hM.symm, hd.symm⟩
        have h0' : mu ⟨it.current, it.endDate, .Months 1, true⟩ = 0 := mu_of_finished rfl
        omega
      | some nd =>
        rw [hadd] at hit
        dsimp only at hit
        subst hit
        refine ⟨⟨addMonthsChecked_valid_of_pos (by omega) hadd, hve,
          Or.inr (Or.inr (Or.inl rfl))⟩, ?_, rfl, hM.symm, hd.symm⟩
        exact month_advance_mu (by omega) hve hf hnd hadd
    · -- step Years 1: twelve months
      rw [hY] at hit
      dsimp only at hit
      rw [show (12 * 1) % 4294967296 = 12 from by norm_num] at hit
      cases hadd : addMonthsChecked it.current 12 with
      | none =>
        rw [hadd] at hit
        dsimp only at hit
        subst hit
        refine ⟨⟨hvc, hve, Or.inr (Or.inr (Or.inr rfl))⟩, ?_, rfl, hY.symm, hd.symm⟩
        have h0' : mu ⟨it.current, it.endDate, .Years 1, true⟩ = 0 := mu_of_finished rfl
        omega
      | some nd =>
        rw [hadd] at hit
        dsimp only at hit
        subst hit
        refine ⟨⟨addMonthsChecked_valid_of_pos (by omega) hadd, hve,
          Or.inr (Or.inr (Or.inr rfl))⟩, ?_, rfl, hY.symm, hd.symm⟩
        exact month_advance_mu (by omega) hve hf hnd hadd

theorem expandFuel_nil {n : Nat} {it : DateIter} (h : next it = none) :
    expandFuel n it = [] := by
  cases n with
  | zero => rfl
  | succ k =>
    unfold expandFuel
    rw [h]

theorem expandFuel_mem_le {n : Nat} {it : DateIter} {d : Date}
    (hm : d ∈ expandFuel n it) : dle d it.endDate := by
  induction n generalizing it with
  | zero => cases hm
  | succ k ih =>
    unfold expandFuel at hm
    cases hn : next it with
    | none => rw [hn] at hm; cases hm
    | some p =>
      obtain ⟨d0, it'⟩ := p
      rw [hn] at hm
      dsimp only at hm
      obtain ⟨hd0, hend, hstep, hf, hnd⟩ := next_some_basic hn
      rcases List.mem_cons.mp hm with rfl | hm'
      · rw [hd0]
        exact dle_of_not_dlt hnd
      · have hrec := ih hm'
        rw [hend] at hrec
        exact hrec

theorem expandFuel_stable {n : Nat} {it : DateIter} (hinv : iterInv it)
    (hn : mu it ≤ n) : expandFuel n it = expand it := by
  unfold expand
  induction n using Nat.strong_induction_on generalizing it with
  | _ n ih =>
    cases hnx : next it with
    | none => rw [expandFuel_nil hnx, expandFuel_nil hnx]
    | some p =>
      obtain ⟨d0, it'⟩ := p
      obtain ⟨hinv', hlt, hend, hstep, hd0⟩ := next_step hinv hnx
      obtain ⟨n', rfl⟩ : ∃ n', n = n' + 1 := ⟨n - 1, by omega⟩
      obtain ⟨m', hm'⟩ : ∃ m', mu it = m' + 1 := ⟨mu it - 1, by omega⟩
      rw [hm']
      unfold expandFuel
      rw [hnx]
      dsimp only
      have e1 : expandFuel n' it' = expandFuel (mu it') it' :=
        ih n' (by omega) hinv' (by omega)
      have e2 : expandFuel m' it' = expandFuel (mu it') it' :=
        ih m' (by omega) hinv' (by omega)
      rw [e1, e2]

/-- The checked calendar addition the iterator's step would perform from
the current date. -/
def advanceOf (it : DateIter) : Option Date :=
  match it.step with
  | .Days d => if d = 0 then some it.current else addDaysChecked it.current d
  | .Months m => addMonthsChecked it.current m
  | .Years y => addMonthsChecked it.current ((12 * y) % 4294967296)

theorem next_overflow {j : DateIter} (hf : j.finished = false)
    (hle : ¬ dlt j.endDate j.current) (hov : advanceOf j = none) :
    next j = some (j.current, { j with finished := true }) ∧
      next { j with finished := true } = none := by
  have hng : ¬ (j.finished = true ∨ dlt j.endDate j.current) := by
    rw [hf]
    simp only [Bool.false_eq_true, false_or]
    exact hle
  constructor
  · unfold next
    rw [if_neg hng]
    unfold advanceOf at hov
    cases hs : j.step with
    | Days d =>
      rw [hs] at hov
      dsimp only at hov
      dsimp only
      split at hov
      · cases hov
      next hdne =>
        rw [if_neg hdne, hov]
    | Months m =>
      rw [hs] at hov
      dsimp only at hov
      dsimp only
      rw [hov]
    | Years y =>
      rw [hs] at hov
      dsimp only at hov
      dsimp only
      rw [hov]
  · exact next_none_iff.mpr (Or.inl rfl)

theorem parse_ok_iterInv {s : String} {now : Date} {it : DateIter}
    (h : parseDateRange s now = .ok it) :
    iterInv it ∧ dle it.current it.endDate := by
  obtain ⟨c, start, yo, mo, dOff, e, hg, ha, hy, hm, hd, he, hit⟩ :=
    parseDateRange_ok_inv h
  have hstart := (fromYmd?_valid ha).1
  obtain ⟨hle, hve⟩ := computeEnd_ok hstart he
  subst hit
  exact ⟨⟨hstart, hve, stepOf_okStep yo mo dOff⟩, hle⟩

/-- Fixed reference "now" (2023-06-10) used for the concrete instances. -/
def refNow : Date := ⟨2023, 6, 10⟩

/-- **C6**: for every range produced by `parse_date_range`, every emitted
date is ≤ the end date; the expansion is a finite list reached with `mu`
fuel (more fuel yields the same list); and when a step advance's checked
calendar addition fails, the iterator emits the current date, marks
itself finished, and returns no more dates — no error is raised. -/
theorem expansionFinite (s : String) (now : Date) (it : DateIter)
    (h : parseDateRange s now = .ok it) :
    (∀ n d, d ∈ expandFuel n it → dle d it.endDate) ∧
    (∀ n, mu it ≤ n → expandFuel n it = expand it) ∧
    (∀ j : DateIter, j.finished = false → ¬ dlt j.endDate j.current →
      advanceOf j = none →
      next j = some (j.current, { j with finished := true }) ∧
        next { j with finished := true } = none) := by
  obtain ⟨hinv, -⟩ := parse_ok_iterInv h
  exact ⟨fun n d hm => expandFuel_mem_le hm,
         fun n hn => expandFuel_stable hinv hn,
         fun j h1 h2 h3 => next_overflow h1 h2 h3⟩

/-- Witness for **C6** at the specifier `2020-06-15+3`. -/
theorem expansionFinite_case :
    parseDateRange "2020-06-15+3" refNow =
      .ok ⟨⟨2020, 6, 15⟩, ⟨2020, 6, 18⟩, .Days 1, false⟩ ∧
    ((∀ n d, d ∈ expandFuel n (⟨⟨2020, 6, 15⟩, ⟨2020, 6, 18⟩, .Days 1, false⟩ : DateIter) →
        dle d (⟨⟨2020, 6, 15⟩, ⟨2020, 6, 18⟩, .Days 1, false⟩ : DateIter).endDate) ∧
     (∀ n, mu (⟨⟨2020, 6, 15⟩, ⟨2020, 6, 18⟩, .Days 1, false⟩ : DateIter) ≤ n →
        expandFuel n ⟨⟨2020, 6, 15⟩, ⟨2020, 6, 18⟩, .Days 1, false⟩ =
          expand ⟨⟨2020, 6, 15⟩, ⟨2020, 6, 18⟩, .Days 1, false⟩) ∧
     (∀ j : DateIter, j.finished = false → ¬ dlt j.endDate j.current →
        advanceOf j = none →
        next j = some (j.current, { j with finished := true }) ∧
          next { j with finished := true } = none)) :=
  ⟨by decide, expansionFinite "2020-06-15+3" refNow _ (by decide)⟩

/-- **C7**: a specifier whose three offset groups are all absent parses to
a range with step `Days 0` (no repetition) whose expansion is exactly the
anchor. -/
theorem noOffsetsSingleton (s : String) (now : Date) (c : Caps) (a : Date)
    (hg : grammarCaps s = some c)
    (hyo : c.yo = none) (hmo : c.mo = none) (hdo : c.dOff = none)
    (ha : fromYmd? (yNum c) (mNum c) (dNum c) = some a) :
    parseDateRange s now = .ok ⟨a, a, .Days 0, false⟩ ∧
      expand ⟨a, a, .Days 0, false⟩ = [a] := by
  constructor
  · unfold parseDateRange
    rw [hg]
    dsimp only
    rw [ha]
    dsimp only
    have r1 : resolveYears c.yo a now = .ok 0 := by rw [hyo]; rfl
    have r2 : resolveMonths c.mo a now = .ok 0 := by rw [hmo]; rfl
    have r3 : resolveDays c.dOff a now = .ok 0 := by rw [hdo]; rfl
    rw [r1]
    dsimp only
    rw [r2]
    dsimp only
    rw [r3]
    dsimp only
    rfl
  · have hnx : next ⟨a, a, .Days 0, false⟩ = some (a, ⟨a, a, .Days 0, true⟩) := by
      unfold next
      rw [if_neg (by simp only [Bool.false_eq_true, false_or]; exact dlt_irrefl a)]
      rfl
    unfold expand
    have hmu : 1 ≤ mu ⟨a, a, .Days 0, false⟩ := by
      rw [mu_eq_pos rfl (dlt_irrefl a)]
      omega
    obtain ⟨k, hk⟩ : ∃ k, mu (⟨a, a, .Days 0, false⟩ : DateIter) = k + 1 :=
      ⟨mu ⟨a, a, .Days 0, false⟩ - 1, by omega⟩
    rw [hk]
    unfold expandFuel
    rw [hnx]
    dsimp only
    rw [expandFuel_nil (next_none_iff.mpr (Or.inl rfl))]

/-- Witness for **C7** at the specifier `2020-06-15`. -/
theorem noOffsetsSingleton_case :
    grammarCaps "2020-06-15" = some ⟨"2020", none, "06", none, "15", none⟩ ∧
    fromYmd? 2020 6 15 = some ⟨2020, 6, 15⟩ ∧
    (parseDateRange "2020-06-15" refNow =
        .ok ⟨⟨2020, 6, 15⟩, ⟨2020, 6, 15⟩, .Days 0, false⟩ ∧
      expand ⟨⟨2020, 6, 15⟩, ⟨2020, 6, 15⟩, .Days 0, false⟩ = [⟨2020, 6, 15⟩]) :=
  ⟨by decide, by decide,
   noOffsetsSingleton "2020-06-15" refNow ⟨"2020", none, "06", none, "15", none⟩
     ⟨2020, 6, 15⟩ (by decide) rfl rfl rfl (by decide)⟩

/-- **C8**: every successfully parsed range satisfies anchor ≤ end. -/
theorem endNotBeforeAnchor (s : String) (now : Date) (it : DateIter)
    (h : parseDateRange s now = .ok it) : dle it.current it.endDate :=
  (parse_ok_iterInv h).2

/-- Witness for **C8** at the specifier `2021+2-03+3-10`. -/
theorem endNotBeforeAnchor_case :
    parseDateRange "2021+2-03+3-10" refNow =
      .ok ⟨⟨2021, 3, 10⟩, ⟨2023, 5, 10⟩, .Months 1, false⟩ ∧
    dle (⟨2021, 3, 10⟩ : Date) ⟨2023, 5, 10⟩ :=
  ⟨by decide,
   endNotBeforeAnchor "2021+2-03+3-10" refNow
     ⟨⟨2021, 3, 10⟩, ⟨2023, 5, 10⟩, .Months 1, false⟩ (by decide)⟩

/-- **C2** counterexample: for the grammar-matching but calendrically
invalid anchor `2023-02-29`, `parse_date_range` PANICS
(`from_ymd_opt(..).unwrap()` on `None`) — the outcome is not a returned
error value, contradicting the claim that an `InvalidAnchorDate` error is
returned. -/
theorem invalidAnchorPanics_cex :
    parseDateRange "2023-02-29" refNow = .panic ∧
      (parseDateRange "2023-02-29" refNow).isErr = false := by
  decide

/-- **C2** (amended): for every specifier matching the grammar whose
anchor fields do not form a valid calendar date, parsing panics (aborts)
rather than returning an error value. -/
theorem invalidAnchorPanics (s : String) (now : Date) (c : Caps)
    (hg : grammarCaps s = some c)
    (hbad : fromYmd? (yNum c) (mNum c) (dNum c) = none) :
    parseDateRange s now = .panic ∧ (parseDateRange s now).isErr = false := by
  have hp : parseDateRange s now = .panic := by
    unfold parseDateRange
    rw [hg]
    dsimp only
    rw [hbad]
  exact ⟨hp, by rw [hp]; rfl⟩

/-- Witness for **C2**: the invalid anchor `2023-02-29` panics while the
valid leap anchor `2024-02-29` parses successfully. -/
theorem invalidAnchorPanics_case :
    grammarCaps "2023-02-29" = some ⟨"2023", none, "02", none, "29", none⟩ ∧
    fromYmd? 2023 2 29 = none ∧
    (parseDateRange "2023-02-29" refNow = .panic ∧
      (parseDateRange "2023-02-29" refNow).isErr = false) ∧
    rangeEnd (parseDateRange "2024-02-29" refNow) = some ⟨2024, 2, 29⟩ :=
  ⟨by decide, by decide,
   invalidAnchorPanics "2023-02-29" refNow ⟨"2023", none, "02", none, "29", none⟩
     (by decide) (by decide),
   by decide⟩

/-- **C5** counterexample: the explicit years offset `4294967296`
(`u32::MAX + 1`) matches the grammar but overflows `parse::<u32>()`,
whose result is unwrapped: `parse_date_range` PANICS instead of
returning a `MalformedSpecifier` error value. -/
theorem overflowOffsetPanics_cex :
    parseDateRange "2023+4294967296-01-01" refNow = .panic ∧
      (parseDateRange "2023+4294967296-01-01" refNow).isErr = false := by
  decide

/-- An explicit (non-empty) years-offset field whose digits overflow
`u32` makes the resolver panic (`parse::<u32>().unwrap()`). -/
theorem resolveYears_panic {t : String} (a now : Date) (ht : ¬ t = "")
    (hov : parseU32? t = none) : resolveYears (some t) a now = .panic := by
  unfold resolveYears
  dsimp only
  rw [if_neg ht, hov]

/-- An explicit (non-empty) months-offset field whose digits overflow
`u32` makes the resolver panic (`parse::<u32>().unwrap()`). -/
theorem resolveMonths_panic {t : String} (a now : Date) (ht : ¬ t = "")
    (hov : parseU32? t = none) : resolveMonths (some t) a now = .panic := by
  unfold resolveMonths
  dsimp only
  rw [if_neg ht, hov]

/-- An explicit (non-empty) days-offset field whose digits overflow
`i64` makes the resolver panic (`parse::<i64>().unwrap()`). -/
theorem resolveDays_panic {t : String} (a now : Date) (ht : ¬ t = "")
    (hov : parseI64? t = none) : resolveDays (some t) a now = .panic := by
  unfold resolveDays
  dsimp only
  rw [if_neg ht, hov]

theorem resolveYears_cases (field : Option String) (a now : Date) :
    (∃ n, resolveYears field a now = .ok n) ∨ resolveYears field a now = .panic := by
  cases field with
  | none => exact Or.inl ⟨0, rfl⟩
  | some t =>
    unfold resolveYears
    dsimp only
    split
    · exact Or.inl ⟨_, rfl⟩
    · cases hp : parseU32? t with
      | some n => exact Or.inl ⟨n, rfl⟩
      | none => exact Or.inr rfl

theorem resolveMonths_cases (field : Option String) (a now : Date) :
    (∃ n, resolveMonths field a now = .ok n) ∨ resolveMonths field a now = .panic := by
  cases field with
  | none => exact Or.inl ⟨0, rfl⟩
  | some t =>
    unfold resolveMonths
    dsimp only
    split
    · exact Or.inl ⟨_, rfl⟩
    · cases hp : parseU32? t with
      | some n => exact Or.inl ⟨n, rfl⟩
      | none => exact Or.inr rfl

/-- **C5** (amended): a grammar-matching specifier (with valid anchor)
containing an explicit offset field — years, months, or days — whose
digit run does not parse as an integer of the target type makes
`parse_date_range` panic (abort), not return an error value. -/
theorem overflowOffsetPanics (s : String) (now : Date) (c : Caps) (a : Date)
    (t : String) (hg : grammarCaps s = some c)
    (ha : fromYmd? (yNum c) (mNum c) (dNum c) = some a)
    (hfield : (c.yo = some t ∧ parseU32? t = none) ∨
              (c.mo = some t ∧ parseU32? t = none) ∨
              (c.dOff = some t ∧ parseI64? t = none))
    (ht : ¬ t = "") :
    parseDateRange s now = .panic ∧ (parseDateRange s now).isErr = false := by
  have hp : parseDateRange s now = .panic := by
    unfold parseDateRange
    rw [hg]
    dsimp only
    rw [ha]
    dsimp only
    rcases hfield with ⟨hf, hov⟩ | ⟨hf, hov⟩ | ⟨hf, hov⟩
    · rw [hf, resolveYears_panic a now ht hov]
    · rcases resolveYears_cases c.yo a now with ⟨n, hy⟩ | hy
      · rw [hy]
        dsimp only
        rw [hf, resolveMonths_panic a now ht hov]
      · rw [hy]
    · rcases resolveYears_cases c.yo a now with ⟨n, hy⟩ | hy
      · rw [hy]
        dsimp only
        rcases resolveMonths_cases c.mo a now with ⟨k, hm2⟩ | hm2
        · rw [hm2]
          dsimp only
          rw [hf, resolveDays_panic a now ht hov]
        · rw [hm2]
      · rw [hy]
  exact ⟨hp, by rw [hp]; rfl⟩

/-- Witness for **C5**, exercising all three offset fields: an
overflowing years offset (`2023+4294967296-01-01`), an overflowing
months offset (`2023-01+4294967296-01`), and an overflowing days offset
(`2023-01-01+99999999999999999999`, above `i64::MAX`) each panic. -/
theorem overflowOffsetPanics_case :
    (grammarCaps "2023+4294967296-01-01" =
        some ⟨"2023", some "4294967296", "01", none, "01", none⟩ ∧
      parseU32? "4294967296" = none ∧
      parseI64? "99999999999999999999" = none) ∧
    (parseDateRange "2023+4294967296-01-01" refNow = .panic ∧
      (parseDateRange "2023+4294967296-01-01" refNow).isErr = false) ∧
    (parseDateRange "2023-01+4294967296-01" refNow = .panic ∧
      (parseDateRange "2023-01+4294967296-01" refNow).isErr = false) ∧
    (parseDateRange "2023-01-01+99999999999999999999" refNow = .panic ∧
      (parseDateRange "2023-01-01+99999999999999999999" refNow).isErr = false) :=
  ⟨⟨by decide, by decide, by decide⟩,
   overflowOffsetPanics "2023+4294967296-01-01" refNow
     ⟨"2023", some "4294967296", "01", none, "01", none⟩ ⟨2023, 1, 1⟩
     "4294967296" (by decide) (by decide) (Or.inl ⟨rfl, by decide⟩) (by decide),
   overflowOffsetPanics "2023-01+4294967296-01" refNow
     ⟨"2023", none, "01", some "4294967296", "01", none⟩ ⟨2023, 1, 1⟩
     "4294967296" (by decide) (by decide) (Or.inr (Or.inl ⟨rfl, by decide⟩))
     (by decide),
   overflowOffsetPanics "2023-01-01+99999999999999999999" refNow
     ⟨"2023", none, "01", none, "01", some "99999999999999999999"⟩ ⟨2023, 1, 1⟩
     "99999999999999999999" (by decide) (by decide)
     (Or.inr (Or.inr ⟨rfl, by decide⟩)) (by decide)⟩

/-- **C10**: the station lookup `crs` knows exactly the codes `EDB` and
`BHG`; any other code panics (missing-key indexing), so it never returns
an error value for them. -/
theorem crsLookupPartial (code : String) (h1 : code ≠ "EDB") (h2 : code ≠ "BHG") :
    crs "EDB" = .ok "Edinburgh Waverley" ∧ crs "BHG" = .ok "Bathgate" ∧
      crs code = .panic := by
  refine ⟨rfl, rfl, ?_⟩
  have e1 : (code == "EDB") = false := beq_eq_false_iff_ne.mpr h1
  have e2 : (code == "BHG") = false := beq_eq_false_iff_ne.mpr h2
  simp [crs, crsDb, List.lookup, e1, e2]

/-- Witness for **C10** at the unknown code `XXX`. -/
theorem crsLookupPartial_case :
    ("XXX" : String) ≠ "EDB" ∧ ("XXX" : String) ≠ "BHG" ∧
    (crs "EDB" = .ok "Edinburgh Waverley" ∧ crs "BHG" = .ok "Bathgate" ∧
      crs "XXX" = .panic) :=
  ⟨by decide, by decide, crsLookupPartial "XXX" (by decide) (by decide)⟩

theorem addMonthsChecked_count_le {a b : Date} {k : Nat} (hk : k ≠ 0)
    (hva : ValidDate a) (h : addMonthsChecked a k = some b) : k ≤ 6291455 := by
  have hidx := addMonthsChecked_monthIdx hk h
  have hvb := addMonthsChecked_valid_of_pos hk h
  have h1 : monthIdx b ≤ 262143 * 12 + 11 := by
    have hy := hvb.2.2.2.2.2
    have hm := hvb.2.1
    unfold maxYear at hy
    unfold monthIdx
    omega
  have h2 : -262144 * 12 ≤ monthIdx a := by
    have hy := hva.2.2.2.2.1
    have hm := hva.1
    unfold minYear at hy
    unfold monthIdx
    omega
  omega

/-- **C1**: when both resolved offsets y > 0 and m > 0 are present, the
end date is the anchor plus `12 * y` months plus `y` months again (the
years count, not the months count); concretely, anchor `2021-03-10` with
`+2` years and `+3` months ends at `2023-05-10` = anchor + 2 years +
2 months. -/
theorem quirkMonthsUsesYears (s : String) (now : Date) (it : DateIter)
    (c : Caps) (a e1 e2 : Date) (y m : Nat)
    (h : parseDateRange s now = .ok it)
    (hg : grammarCaps s = some c)
    (ha : fromYmd? (yNum c) (mNum c) (dNum c) = some a)
    (hy : resolveYears c.yo a now = .ok y)
    (hm : resolveMonths c.mo a now = .ok m)
    (hd : resolveDays c.dOff a now = .ok 0)
    (hy0 : 0 < y) (hm0 : 0 < m)
    (he1 : addMonthsChecked a (12 * y) = some e1)
    (he2 : addMonthsChecked e1 y = some e2) :
    it.endDate = e2 ∧
      rangeEnd (parseDateRange "2021+2-03+3-10" refNow) = some ⟨2023, 5, 10⟩ := by
  refine ⟨?_, by decide⟩
  have hva := (fromYmd?_valid ha).1
  have hve1 : ValidDate e1 := addMonthsChecked_valid_of_pos (by omega) he1
  have hyb : y ≤ 6291455 := addMonthsChecked_count_le (by omega) hve1 he2
  have hmod : (12 * y) % 4294967296 = 12 * y := Nat.mod_eq_of_lt (by omega)
  obtain ⟨c', a', y', m', d', e', hg', ha', hy', hm', hd', he', hit⟩ :=
    parseDateRange_ok_inv h
  rw [hg] at hg'
  injection hg' with hc
  subst hc
  rw [ha] at ha'
  injection ha' with haa
  subst haa
  rw [hy] at hy'
  injection hy' with hyy
  subst hyy
  rw [hm] at hm'
  injection hm' with hmm
  subst hmm
  rw [hd] at hd'
  injection hd' with hdd
  subst hdd
  unfold computeEnd at he'
  rw [if_pos hy0, hmod, he1] at he'
  dsimp only at he'
  rw [if_pos hm0, he2] at he'
  dsimp only at he'
  rw [if_neg (show ¬ (0 : Int) < 0 by omega)] at he'
  injection he' with hee
  subst hit
  exact hee.symm

/-- Witness for **C1** at the specifier `2021+2-03+3-10`. -/
theorem quirkMonthsUsesYears_case :
    parseDateRange "2021+2-03+3-10" refNow =
      .ok ⟨⟨2021, 3, 10⟩, ⟨2023, 5, 10⟩, .Months 1, false⟩ ∧
    grammarCaps "2021+2-03+3-10" =
      some ⟨"2021", some "2", "03", some "3", "10", none⟩ ∧
    addMonthsChecked ⟨2021, 3, 10⟩ (12 * 2) = some ⟨2023, 3, 10⟩ ∧
    addMonthsChecked ⟨2023, 3, 10⟩ 2 = some ⟨2023, 5, 10⟩ ∧
    ((⟨⟨2021, 3, 10⟩, ⟨2023, 5, 10⟩, .Months 1, false⟩ : DateIter).endDate =
        ⟨2023, 5, 10⟩ ∧
      rangeEnd (parseDateRange "2021+2-03+3-10" refNow) = some ⟨2023, 5, 10⟩) :=
  ⟨by decide, by decide, by decide, by decide,
   quirkMonthsUsesYears "2021+2-03+3-10" refNow
     ⟨⟨2021, 3, 10⟩, ⟨2023, 5, 10⟩, .Months 1, false⟩
     ⟨"2021", some "2", "03", some "3", "10", none⟩
     ⟨2021, 3, 10⟩ ⟨2023, 3, 10⟩ ⟨2023, 5, 10⟩ 2 3
     (by decide) (by decide) (by decide) (by decide) (by decide) (by decide)
     (by omega) (by omega) (by decide) (by decide)⟩

/-- **C4**: the step unit of a parsed range follows the fixed priority on
the resolved offsets: days > 0 → 1 day, else months > 0 → 1 month, else
years > 0 → 1 year, else no repetition (`Days 0`). -/
theorem stepUnitPriority (s : String) (now : Date) (it : DateIter)
    (c : Caps) (a : Date) (y m : Nat) (dOff : Int)
    (h : parseDateRange s now = .ok it)
    (hg : grammarCaps s = some c)
    (ha : fromYmd? (yNum c) (mNum c) (dNum c) = some a)
    (hy : resolveYears c.yo a now = .ok y)
    (hm : resolveMonths c.mo a now = .ok m)
    (hd : resolveDays c.dOff a now = .ok dOff) :
    it.step = (if 0 < dOff then DateStep.Days 1 else if 0 < m then .Months 1
               else if 0 < y then .Years 1 else .Days 0) := by
  obtain ⟨c', a', y', m', d', e', hg', ha', hy', hm', hd', he', hit⟩ :=
    parseDateRange_ok_inv h
  rw [hg] at hg'
  injection hg' with hc
  subst hc
  rw [ha] at ha'
  injection ha' with haa
  subst haa
  rw [hy] at hy'
  injection hy' with hyy
  subst hyy
  rw [hm] at hm'
  injection hm' with hmm
  subst hmm
  rw [hd] at hd'
  injection hd' with hdd
  subst hdd
  subst hit
  rfl

/-- Witness for **C4** at the specifier `2020-06+2-15+3` (resolved
offsets: years 0, months 2, days 3 → step is 1 day). -/
theorem stepUnitPriority_case :
    parseDateRange "2020-06+2-15+3" refNow =
      .ok ⟨⟨2020, 6, 15⟩, ⟨2020, 6, 18⟩, .Days 1, false⟩ ∧
    (⟨⟨2020, 6, 15⟩, ⟨2020, 6, 18⟩, .Days 1, false⟩ : DateIter).step =
      (if 0 < (3 : Int) then DateStep.Days 1 else if 0 < 2 then .Months 1
       else if 0 < 0 then .Years 1 else .Days 0) :=
  ⟨by decide,
   stepUnitPriority "2020-06+2-15+3" refNow
     ⟨⟨2020, 6, 15⟩, ⟨2020, 6, 18⟩, .Days 1, false⟩
     ⟨"2020", none, "06", some "2", "15", some "3"⟩ ⟨2020, 6, 15⟩ 0 2 3
     (by decide) (by decide) (by decide) (by decide) (by decide) (by decide)⟩

/-- **C3**: an auto (`+` with no digits) offset resolves to
max(0, component of now − same component of anchor), comparing one
component only; and for anchor `2000-01-01` with auto years under
now = 2023-06-10 the resolved range steps by 1 year up to `2023-01-01`,
a sequence of 24 dates. -/
theorem autoOffsetsComponentwise :
    (∀ a now : Date, resolveYears (some "") a now =
        .ok (max 0 (now.year - a.year)).toNat) ∧
    (∀ a now : Date, resolveMonths (some "") a now =
        .ok (max 0 ((now.month : Int) - (a.month : Int))).toNat) ∧
    (∀ a now : Date, resolveDays (some "") a now =
        .ok (max 0 ((now.day : Int) - (a.day : Int)))) ∧
    resolveYears (some "") ⟨2000, 1, 1⟩ refNow = .ok 23 ∧
    rangeStep (parseDateRange "2000+-01-01" refNow) = some (.Years 1) ∧
    rangeEnd (parseDateRange "2000+-01-01" refNow) = some ⟨2023, 1, 1⟩ ∧
    (rangeDates (parseDateRange "2000+-01-01" refNow)).map List.length = some 24 := by
  refine ⟨?_, ?_, ?_, by decide, by decide, by decide, by decide⟩
  · intro a now
    unfold resolveYears
    dsimp only
    rw [if_pos rfl]
    congr 1
    split <;> omega
  · intro a now
    unfold resolveMonths
    dsimp only
    rw [if_pos rfl]
    congr 1
    split <;> omega
  · intro a now
    unfold resolveDays
    dsimp only
    rw [if_pos rfl]
    congr 1
    split <;> omega

theorem charsLt_irrefl (x : List Char) : charsLt x x = false := by
  induction x with
  | nil => rfl
  | cons c cs ih =>
    unfold charsLt
    rw [if_neg (by omega), if_neg (by omega)]
    exact ih

theorem charsLt_asymm {x y : List Char} (h : charsLt x y = true) :
    charsLt y x = false := by
  induction x generalizing y with
  | nil =>
    cases y with
    | nil => exact absurd h (by decide)
    | cons d ds => rfl
  | cons c cs ih =>
    cases y with
    | nil => cases h
    | cons d ds =>
      unfold charsLt at h
      split at h
      next hcd =>
        unfold charsLt
        rw [if_neg (by omega), if_pos hcd]
      next hcd =>
        split at h
        · cases h
        next hdc =>
          unfold charsLt
          rw [if_neg hdc, if_neg hcd]
          exact ih h

theorem strLt_asymm {a b : String} (h : strLt a b = true) : strLt b a = false :=
  charsLt_asymm h

theorem strLt_ne {a b : String} (h : strLt a b = true) : a ≠ b := by
  intro he
  subst he
  rw [show strLt a a = false from charsLt_irrefl a.data] at h
  cases h

theorem insertSorted_append {α : Type} (l : List (String × α)) (kv : String × α)
    (h : ∀ p ∈ l, strLt p.1 kv.1 = true) : insertSorted l kv = l ++ [kv] := by
  induction l with
  | nil => rfl
  | cons hd tl ih =>
    obtain ⟨k, v⟩ := hd
    have hlt : strLt k kv.1 = true := h (k, v) (List.mem_cons_self _ _)
    unfold insertSorted
    rw [if_neg (by rw [strLt_asymm hlt]; simp), if_neg (Ne.symm (strLt_ne hlt))]
    rw [ih fun p hp => h p (List.mem_cons_of_mem _ hp)]
    rfl

theorem btreeFromList_sorted_id {α : Type} (l : List (String × α))
    (h : List.Pairwise (fun p q => strLt p.1 q.1 = true) l) : btreeFromList l = l := by
  suffices haux : ∀ (l : List (String × α)) (acc : List (String × α)),
      List.Pairwise (fun p q => strLt p.1 q.1 = true) l →
      (∀ p ∈ acc, ∀ q ∈ l, strLt p.1 q.1 = true) →
      List.foldl insertSorted acc l = acc ++ l by
    have := haux l [] h (by intro p hp; cases hp)
    simpa using this
  intro l
  induction l with
  | nil => intro acc _ _; simp [List.foldl]
  | cons q t ih =>
    intro acc hp hacc
    have hq : insertSorted acc q = acc ++ [q] :=
      insertSorted_append acc q fun p hpm => hacc p hpm q (List.mem_cons_self _ _)
    show List.foldl insertSorted (insertSorted acc q) t = acc ++ q :: t
    rw [hq]
    rw [ih (acc ++ [q]) (List.Pairwise.of_cons hp) ?_]
    · simp
    · intro p hpm r hr
      rcases List.mem_append.mp hpm with hin | hone
      · exact hacc p hin r (List.mem_cons_of_mem _ hr)
      · have hpq : p = q := by
          cases hone with
          | head => rfl
          | tail _ hx => cases hx
        subst hpq
        exact (List.pairwise_cons.mp hp).1 r hr

/-- **C9**: for a calendar (keys strictly increasing in the `BTreeMap`
order — the map's invariant) and any event filter, the filtered export is
exactly the original entries with filter-mapped event lists, entries
whose filtered list is empty removed, and the remaining order unchanged. -/
theorem filteredExportExact (T : Type) (f : Event → Option T)
    (data : List (String × List Event))
    (hs : List.Pairwise (fun p q => strLt p.1 q.1 = true) data) :
    writeFiltered data f =
      (data.map fun p => (p.1, p.2.filterMap f)).filter fun p => !p.2.isEmpty := by
  unfold writeFiltered
  apply btreeFromList_sorted_id
  have h1 : List.Pairwise (fun p q => strLt p.1 q.1 = true)
      (data.map fun p => (p.1, p.2.filterMap f)) := by
    rw [List.pairwise_map]
    simpa using hs
  exact h1.filter _

/-- The concrete calendar used as witness for **C9**. -/
def calC9 : List (String × List Event) :=
  [("2020-01-01", [.birthday "Ada", .comp "WC2020"]),
   ("2020-01-02", [.comp "WC2021"])]

/-- Witness for **C9**: filtering `calC9` by the birthday variant keeps
only the first entry, with just the birthday payload. -/
theorem filteredExportExact_case :
    List.Pairwise (fun p q => strLt p.1 q.1 = true) calC9 ∧
    writeFiltered calC9 birthdayFilter = [("2020-01-01", ["Ada"])] :=
  ⟨by decide,
   (filteredExportExact String birthdayFilter calC9 (by decide)).trans (by decide)⟩
